import Mathlib

set_option linter.unusedVariables false

/-!
Verification of the Camel Up race-state engine (`src/camelup`).

The Python data model is embedded shallowly:

* `models.Camel` becomes the `Camel` structure (name, recorded slot index,
  direction flag; the ANSI display color is presentation-only and omitted).
  Python's `Camel.__eq__` compares names only, so all stack searches below
  compare the `name` field.
* `board.Board` becomes the `Board` structure: `tiles` is the list of
  bottom-to-top stacks, one per slot `0 .. track_length`.
* Fallible Python code (index errors, `ValueError` from `list.index`,
  `StopIteration` from `next`) is modelled with `Option`: `none` marks an
  execution on which the Python raises.
-/

/-- A racing camel: identity, recorded slot index (`position`) and
direction flag, mirroring `models.Camel`. -/
structure Camel where
  name : String
  position : Nat
  moves_backward : Bool
deriving DecidableEq, Repr, Inhabited

/-- The track, mirroring `board.Board`: `tiles` holds one bottom-to-top
stack of camels per slot; the constructor builds `track_length + 1` slots. -/
structure Board where
  track_length : Nat
  tiles : List (List Camel)
deriving DecidableEq, Repr

/-- The stack on slot `i` (`self.tiles[position]`); out-of-range reads,
which raise in Python, default to `[]` here — the theorems keep indices in
range, where the two agree. -/
def Board.tileAt (b : Board) (i : Nat) : List Camel :=
  b.tiles.getD i []

/-- Every camel on the board, slot by slot, bottom to top. -/
def Board.allCamels (b : Board) : List Camel :=
  b.tiles.flatten

/-- Destination slot of `Board.move_camel_with_stack` (board.py lines
207-212): backward camels clamp at 0 (`max(0, pos - steps)`, which is
truncated subtraction on `Nat`), forward camels clamp at `track_length`. -/
def Board.dest_pos (b : Board) (camel : Camel) (steps : Nat) : Nat :=
  if camel.moves_backward then camel.position - steps
  else min (camel.position + steps) b.track_length

/-- The camels that move together: the named camel and everything stacked
above it (`stack[camel_index:]` for `camel_index = stack.index(camel)`). -/
def Board.moving_group (b : Board) (camel : Camel) : List Camel :=
  match (b.tileAt camel.position).findIdx? (fun c => c.name == camel.name) with
  | some i => (b.tileAt camel.position).drop i
  | none => []

/-- `Board.move_camel_with_stack` (board.py lines 194-219).  The camel and
all camels above it leave `tiles[camel.position]` and are appended, order
preserved and positions rewritten, on top of the destination stack.  The
Python function ends without a `return`, so its caller receives `None`;
that returned value is the second component of the result pair.  `none`
marks the executions on which Python raises (`tiles[...]` out of range, or
`stack.index(camel)` failing). -/
def Board.move_camel_with_stack (b : Board) (camel : Camel) (steps : Nat) :
    Option (Board × Option (String × Int)) :=
  match b.tiles[camel.position]? with
  | none => none
  | some stack =>
    match stack.findIdx? (fun c => c.name == camel.name) with
    | none => none
    | some i =>
      let tiles1 := b.tiles.set camel.position (stack.take i)
      let np := b.dest_pos camel steps
      match tiles1[np]? with
      | none => none
      | some dest =>
        some ({ b with tiles := (tiles1.set np (dest ++ (stack.drop i).map (fun c => { c with position := np }))) }, none)

/-- `Board.move_camel_stack` (board.py lines 47-75): the legacy
forward-only stack move.  It first checks `camel not in stack` (raising
`ValueError`, our `none`), then relocates `stack[index:]` to
`min(old_pos + steps, track_length)` exactly like the main move. -/
def Board.move_camel_stack (b : Board) (camel : Camel) (steps : Nat) : Option Board :=
  match b.tiles[camel.position]? with
  | none => none
  | some stack =>
    if stack.any (fun c => c.name == camel.name) then
      match stack.findIdx? (fun c => c.name == camel.name) with
      | none => none
      | some i =>
        let tiles1 := b.tiles.set camel.position (stack.take i)
        let np := min (camel.position + steps) b.track_length
        match tiles1[np]? with
        | none => none
        | some dest =>
          some { b with tiles := (tiles1.set np (dest ++ (stack.drop i).map (fun c => { c with position := np }))) }
    else none

/-- `Board.is_finished` (board.py lines 89-99): the loop runs `tile_index`
from `track_length` down to 0 and returns `True` on the first non-empty
stack — so it reports `True` whenever ANY slot is occupied, not only the
finish slot. -/
def Board.is_finished (b : Board) : Bool :=
  ((List.range (b.track_length + 1)).reverse).any (fun i => !(b.tileAt i).isEmpty)

/-- `Board.get_winning_camel` (board.py lines 101-111): topmost camel of
the furthest occupied slot. -/
def Board.get_winning_camel (b : Board) : Option Camel :=
  ((List.range (b.track_length + 1)).reverse).findSome?
    (fun i => (b.tileAt i).getLast?)

/-! ### Conservation lemmas for the stack move -/

/-- The common shape of both stack moves: empty the slice out of the old
slot, then append its position-rewritten copy to the destination stack. -/
def movedTiles (t : List (List Camel)) (pos i np : Nat) (stack : List Camel) :
    List (List Camel) :=
  (t.set pos (stack.take i)).set np
    (((t.set pos (stack.take i)).getD np []) ++
      (stack.drop i).map (fun c => { c with position := np }))

theorem countP_flatten_set (p : Camel → Bool) (l : List (List Camel)) (j : Nat)
    (old s : List Camel) (hj : l[j]? = some old) :
    ((l.set j s).flatten.countP p) + old.countP p = l.flatten.countP p + s.countP p := by
  induction l generalizing j with
  | nil => simp at hj
  | cons x t ih =>
    cases j with
    | zero =>
      simp only [List.getElem?_cons_zero, Option.some.injEq] at hj
      subst hj
      simp only [List.set_cons_zero, List.flatten_cons, List.countP_append]
      omega
    | succ j =>
      simp only [List.getElem?_cons_succ] at hj
      have h := ih j hj
      simp only [List.set_cons_succ, List.flatten_cons, List.countP_append]
      omega

theorem length_flatten_set (l : List (List Camel)) (j : Nat) (old s : List Camel)
    (hj : l[j]? = some old) :
    ((l.set j s).flatten.length) + old.length = l.flatten.length + s.length := by
  have h := countP_flatten_set (fun _ => true) l j old s hj
  simpa [List.countP_true] using h

theorem getElem?_set_getD (t : List (List Camel)) (j : Nat) (h : j < t.length) :
    t[j]? = some (t.getD j []) := by
  rw [List.getD_eq_getElem?_getD, List.getElem?_eq_getElem h]
  rfl

theorem countP_movedTiles (p : Camel → Bool) (hp : ∀ c n, p { c with position := n } = p c)
    (t : List (List Camel)) (pos i np : Nat) (stack : List Camel)
    (hstack : t[pos]? = some stack) (hnp : np < t.length) :
    (movedTiles t pos i np stack).flatten.countP p = t.flatten.countP p := by
  unfold movedTiles
  have hlen1 : (t.set pos (stack.take i)).length = t.length := t.length_set pos _
  have ht1 : (t.set pos (stack.take i))[np]? =
      some ((t.set pos (stack.take i)).getD np []) :=
    getElem?_set_getD _ np (by omega)
  have h1 := countP_flatten_set p t pos stack (stack.take i) hstack
  have h2 := countP_flatten_set p (t.set pos (stack.take i)) np
    ((t.set pos (stack.take i)).getD np [])
    (((t.set pos (stack.take i)).getD np []) ++
      (stack.drop i).map (fun c => { c with position := np })) ht1
  have hmap : ((stack.drop i).map (fun c => { c with position := np })).countP p =
      (stack.drop i).countP p := by
    rw [List.countP_map]
    have : (p ∘ fun c => { c with position := np }) = p := funext fun c => hp c np
    rw [this]
  have hsplit : (stack.take i).countP p + (stack.drop i).countP p = stack.countP p := by
    rw [← List.countP_append, List.take_append_drop]
  rw [List.countP_append, hmap] at h2
  omega

theorem length_movedTiles (t : List (List Camel)) (pos i np : Nat) (stack : List Camel)
    (hstack : t[pos]? = some stack) (hnp : np < t.length) :
    (movedTiles t pos i np stack).flatten.length = t.flatten.length := by
  have h := countP_movedTiles (fun _ => true) (fun _ _ => rfl) t pos i np stack hstack hnp
  simpa [List.countP_true] using h

theorem length_movedTiles_tiles (t : List (List Camel)) (pos i np : Nat)
    (stack : List Camel) : (movedTiles t pos i np stack).length = t.length := by
  unfold movedTiles
  simp

theorem move_camel_with_stack_eq (b : Board) (camel : Camel) (steps : Nat)
    (stack : List Camel) (i : Nat)
    (hstack : b.tiles[camel.position]? = some stack)
    (hidx : stack.findIdx? (fun c => c.name == camel.name) = some i)
    (hnp : b.dest_pos camel steps < b.tiles.length) :
    b.move_camel_with_stack camel steps =
      some ({ b with tiles := movedTiles b.tiles camel.position i (b.dest_pos camel steps) stack },
            none) := by
  unfold Board.move_camel_with_stack movedTiles
  have hlen1 : (b.tiles.set camel.position (stack.take i)).length = b.tiles.length :=
    b.tiles.length_set camel.position _
  have ht1 : (b.tiles.set camel.position (stack.take i))[b.dest_pos camel steps]? =
      some ((b.tiles.set camel.position (stack.take i)).getD (b.dest_pos camel steps) []) :=
    getElem?_set_getD _ _ (by omega)
  simp only [hstack]
  simp only [hidx]
  simp only [ht1]

theorem move_camel_stack_eq (b : Board) (camel : Camel) (steps : Nat)
    (stack : List Camel) (i : Nat)
    (hstack : b.tiles[camel.position]? = some stack)
    (hany : stack.any (fun c => c.name == camel.name) = true)
    (hidx : stack.findIdx? (fun c => c.name == camel.name) = some i)
    (hnp : min (camel.position + steps) b.track_length < b.tiles.length) :
    b.move_camel_stack camel steps =
      some { b with tiles := (movedTiles b.tiles camel.position i (min (camel.position + steps) b.track_length) stack) } := by
  unfold Board.move_camel_stack movedTiles
  have hlen1 : (b.tiles.set camel.position (stack.take i)).length = b.tiles.length :=
    b.tiles.length_set camel.position _
  have ht1 : (b.tiles.set camel.position (stack.take i))[min (camel.position + steps) b.track_length]? =
      some ((b.tiles.set camel.position (stack.take i)).getD (min (camel.position + steps) b.track_length) []) :=
    getElem?_set_getD _ _ (by omega)
  simp only [hstack]
  simp only [hany, if_true]
  simp only [hidx]
  simp only [ht1]

theorem tiles_getElem?_tileAt (b : Board) (pos : Nat) (h : pos < b.tiles.length) :
    b.tiles[pos]? = some (b.tileAt pos) :=
  getElem?_set_getD b.tiles pos h

theorem getD_set_self (l : List (List Camel)) (np : Nat) (v : List Camel)
    (h : np < l.length) : (l.set np v).getD np [] = v := by
  rw [List.getD_eq_getElem?_getD, List.getElem?_set_self (by simpa using h)]
  rfl

theorem findIdx?_isSome_of_any (l : List Camel) (p : Camel → Bool) (h : l.any p = true) :
    ∃ i, l.findIdx? p = some i := by
  induction l with
  | nil => simp at h
  | cons x t ih =>
    by_cases hx : p x = true
    · exact ⟨0, by simp [List.findIdx?_cons, hx]⟩
    · have ht : t.any p = true := by
        simp only [List.any_cons, Bool.or_eq_true] at h
        tauto
      obtain ⟨i, hi⟩ := ih ht
      exact ⟨i + 1, by simp [List.findIdx?_cons, hx, hi]⟩

theorem movedTiles_getD_np (t : List (List Camel)) (pos i np : Nat) (stack : List Camel)
    (hnp : np < t.length) :
    (movedTiles t pos i np stack).getD np [] =
      ((t.set pos (stack.take i)).getD np []) ++
        (stack.drop i).map (fun c => { c with position := np }) := by
  unfold movedTiles
  exact getD_set_self _ _ _ (by simpa using hnp)

theorem dest_pos_lt (b : Board) (camel : Camel) (steps : Nat)
    (hlen : b.tiles.length = b.track_length + 1)
    (hpos : camel.position < b.tiles.length) :
    b.dest_pos camel steps < b.tiles.length := by
  unfold Board.dest_pos
  split <;> omega

/-- C1: moving a camel resident in the stack at its recorded position with
`move_camel_with_stack` by `steps` steps places the camel and every camel
that was above it at slot `clamp(old + steps * direction, 0, L)`: a forward
camel lands on `min(old + steps, track_length)`, a backward camel on
`max(old - steps, 0)` (truncated `Nat` subtraction). -/
theorem move_camel_with_stack_places_group (b : Board) (camel : Camel) (steps : Nat)
    (hlen : b.tiles.length = b.track_length + 1)
    (hpos : camel.position < b.tiles.length)
    (hmem : (b.tileAt camel.position).any (fun c => c.name == camel.name) = true) :
    ∃ b', b.move_camel_with_stack camel steps = some (b', none) ∧
      b.dest_pos camel steps =
        (if camel.moves_backward then camel.position - steps
         else min (camel.position + steps) b.track_length) ∧
      ∀ c ∈ b.moving_group camel,
        { c with position := b.dest_pos camel steps } ∈ b'.tileAt (b.dest_pos camel steps) := by
  have hstack := tiles_getElem?_tileAt b camel.position hpos
  obtain ⟨i, hidx⟩ := findIdx?_isSome_of_any _ _ hmem
  have hnp := dest_pos_lt b camel steps hlen hpos
  have heq := move_camel_with_stack_eq b camel steps _ i hstack hidx hnp
  refine ⟨_, heq, rfl, ?_⟩
  intro c hc
  unfold Board.moving_group at hc
  rw [hidx] at hc
  show _ ∈ Board.tileAt _ _
  unfold Board.tileAt
  show _ ∈ (movedTiles b.tiles camel.position i (b.dest_pos camel steps)
      (b.tileAt camel.position)).getD (b.dest_pos camel steps) []
  rw [movedTiles_getD_np _ _ _ _ _ hnp]
  exact List.mem_append_right _ (List.mem_map_of_mem _ hc)

def redCamel : Camel := { name := "Red", position := 0, moves_backward := false }

def blueCamel : Camel := { name := "Blue", position := 0, moves_backward := false }

def witnessBoard : Board := { track_length := 2, tiles := [[redCamel, blueCamel], [], []] }

theorem move_camel_with_stack_places_group_witness :
    ∃ b', witnessBoard.move_camel_with_stack redCamel 5 = some (b', none) ∧
      witnessBoard.dest_pos redCamel 5 =
        (if redCamel.moves_backward then redCamel.position - 5
         else min (redCamel.position + 5) witnessBoard.track_length) ∧
      ∀ c ∈ witnessBoard.moving_group redCamel,
        { c with position := witnessBoard.dest_pos redCamel 5 } ∈
          b'.tileAt (witnessBoard.dest_pos redCamel 5) :=
  move_camel_with_stack_places_group witnessBoard redCamel 5 (by decide) (by decide) (by decide)

theorem name_map_moved (l : List Camel) (np : Nat) :
    (l.map (fun c => { c with position := np })).map Camel.name = l.map Camel.name := by
  rw [List.map_map]
  rfl

/-- C2: a single stack move (either `move_camel_with_stack` or the legacy
`move_camel_stack`) of a camel resident at its recorded position keeps the
total number of camels on the board unchanged, keeps every camel name's
multiplicity (so a camel appearing in exactly one slot's stack still does),
and keeps the bottom-to-top order of the co-moving camels: their name
sequence is a suffix of the destination stack. -/
theorem move_preserves_camel_inventory (b : Board) (camel : Camel) (steps : Nat)
    (hlen : b.tiles.length = b.track_length + 1)
    (hpos : camel.position < b.tiles.length)
    (hmem : (b.tileAt camel.position).any (fun c => c.name == camel.name) = true) :
    (∃ b', b.move_camel_with_stack camel steps = some (b', none) ∧
      b'.allCamels.length = b.allCamels.length ∧
      (∀ n : String, b'.allCamels.countP (fun c => c.name == n)
          = b.allCamels.countP (fun c => c.name == n)) ∧
      (∀ n : String, b.allCamels.countP (fun c => c.name == n) = 1 →
          b'.allCamels.countP (fun c => c.name == n) = 1) ∧
      List.IsSuffix ((b.moving_group camel).map Camel.name)
        ((b'.tileAt (b.dest_pos camel steps)).map Camel.name)) ∧
    (∃ b₂, b.move_camel_stack camel steps = some b₂ ∧
      b₂.allCamels.length = b.allCamels.length ∧
      (∀ n : String, b₂.allCamels.countP (fun c => c.name == n)
          = b.allCamels.countP (fun c => c.name == n)) ∧
      List.IsSuffix ((b.moving_group camel).map Camel.name)
        ((b₂.tileAt (min (camel.position + steps) b.track_length)).map Camel.name)) := by
  have hstack := tiles_getElem?_tileAt b camel.position hpos
  obtain ⟨i, hidx⟩ := findIdx?_isSome_of_any _ _ hmem
  have hgroup : b.moving_group camel = (b.tileAt camel.position).drop i := by
    unfold Board.moving_group
    rw [hidx]
  constructor
  · have hnp := dest_pos_lt b camel steps hlen hpos
    have heq := move_camel_with_stack_eq b camel steps _ i hstack hidx hnp
    refine ⟨_, heq, ?_, ?_, ?_, ?_⟩
    · exact length_movedTiles _ _ _ _ _ hstack hnp
    · intro n
      exact countP_movedTiles (fun c => c.name == n) (fun _ _ => rfl) _ _ _ _ _ hstack hnp
    · intro n h1
      rw [← h1]
      exact countP_movedTiles (fun c => c.name == n) (fun _ _ => rfl) _ _ _ _ _ hstack hnp
    · show List.IsSuffix _ (((movedTiles b.tiles camel.position i (b.dest_pos camel steps)
        (b.tileAt camel.position)).getD (b.dest_pos camel steps) []).map Camel.name)
      rw [movedTiles_getD_np _ _ _ _ _ hnp, List.map_append, name_map_moved, hgroup]
      exact ⟨_, rfl⟩
  · have hnp : min (camel.position + steps) b.track_length < b.tiles.length := by omega
    have heq := move_camel_stack_eq b camel steps _ i hstack hmem hidx hnp
    refine ⟨_, heq, ?_, ?_, ?_⟩
    · exact length_movedTiles _ _ _ _ _ hstack hnp
    · intro n
      exact countP_movedTiles (fun c => c.name == n) (fun _ _ => rfl) _ _ _ _ _ hstack hnp
    · show List.IsSuffix _ (((movedTiles b.tiles camel.position i
        (min (camel.position + steps) b.track_length)
        (b.tileAt camel.position)).getD (min (camel.position + steps) b.track_length) []).map Camel.name)
      rw [movedTiles_getD_np _ _ _ _ _ hnp, List.map_append, name_map_moved, hgroup]
      exact ⟨_, rfl⟩

theorem move_preserves_camel_inventory_witness :
    (∃ b', witnessBoard.move_camel_with_stack redCamel 1 = some (b', none) ∧
      b'.allCamels.length = witnessBoard.allCamels.length ∧
      (∀ n : String, b'.allCamels.countP (fun c => c.name == n)
          = witnessBoard.allCamels.countP (fun c => c.name == n)) ∧
      (∀ n : String, witnessBoard.allCamels.countP (fun c => c.name == n) = 1 →
          b'.allCamels.countP (fun c => c.name == n) = 1) ∧
      List.IsSuffix ((witnessBoard.moving_group redCamel).map Camel.name)
        ((b'.tileAt (witnessBoard.dest_pos redCamel 1)).map Camel.name)) ∧
    (∃ b₂, witnessBoard.move_camel_stack redCamel 1 = some b₂ ∧
      b₂.allCamels.length = witnessBoard.allCamels.length ∧
      (∀ n : String, b₂.allCamels.countP (fun c => c.name == n)
          = witnessBoard.allCamels.countP (fun c => c.name == n)) ∧
      List.IsSuffix ((witnessBoard.moving_group redCamel).map Camel.name)
        ((b₂.tileAt (min (redCamel.position + 1) witnessBoard.track_length)).map Camel.name)) :=
  move_preserves_camel_inventory witnessBoard redCamel 1 (by decide) (by decide) (by decide)

/-- A track of length 2 whose only camel sits on the start slot, far from
the finish boundary. -/
def soloBoard : Board :=
  { track_length := 2, tiles := [[{ name := "Red", position := 0, moves_backward := false }], [], []] }

/-- C3 exhibit: `is_finished` returns `True` for a board whose only camel
is on the start slot — every camel is strictly below the finish boundary
and the finish slot is empty, yet the query deems the race over, because
its loop scans every slot down to 0 instead of only slots at or beyond the
boundary (contradicting its own docstring). -/
theorem is_finished_true_without_finisher :
    soloBoard.is_finished = true ∧
    soloBoard.tileAt soloBoard.track_length = [] ∧
    soloBoard.allCamels.all (fun c => decide (c.position < soloBoard.track_length)) = true :=
  ⟨rfl, rfl, rfl⟩

/-! ### Players and payouts (player.py) -/

/-- `player.Player`, restricted to the fields the payout path touches.
`money` starts at 3 and is an integer. -/
structure Player where
  name : String
  money : Int
  finish_cards_remaining : Nat
  pyramid_tickets : Nat
deriving DecidableEq, Repr

/-- `Player.receive_payout` (player.py lines 24-26):
`self.money = max(0, self.money + amount)`. -/
def Player.receive_payout (p : Player) (amount : Int) : Player :=
  { p with money := max 0 (p.money + amount) }

/-- C10: `receive_payout` sets the balance to `max(0, old + amount)`; a
loss larger than the current balance is truncated to 0 instead of debt,
and after any sequence of payout applications the balance is never
negative. -/
theorem receive_payout_clamps_at_zero (p : Player) (amount : Int) (amounts : List Int) :
    (p.receive_payout amount).money = max 0 (p.money + amount) ∧
    0 ≤ (p.receive_payout amount).money ∧
    (p.money + amount < 0 → (p.receive_payout amount).money = 0) ∧
    (amounts ≠ [] → 0 ≤ (amounts.foldl Player.receive_payout p).money) := by
  refine ⟨rfl, le_max_left _ _, fun h => ?_, fun hne => ?_⟩
  · simp [Player.receive_payout]
    omega
  · obtain ⟨a, rest, rfl⟩ := List.exists_cons_of_ne_nil hne
    rw [List.foldl_cons]
    clear hne
    induction rest generalizing p a with
    | nil => exact le_max_left _ _
    | cons x xs ih => exact ih (p.receive_payout a) x
    

theorem receive_payout_clamps_at_zero_witness :
    ((⟨"P1", 3, 5, 0⟩ : Player).receive_payout (-10)).money = max 0 ((3 : Int) + (-10)) ∧
    0 ≤ ((⟨"P1", 3, 5, 0⟩ : Player).receive_payout (-10)).money ∧
    ((3 : Int) + (-10) < 0 → ((⟨"P1", 3, 5, 0⟩ : Player).receive_payout (-10)).money = 0) ∧
    (([(-10 : Int), 4, -7] : List Int) ≠ [] →
      0 ≤ (([(-10 : Int), 4, -7]).foldl Player.receive_payout (⟨"P1", 3, 5, 0⟩ : Player)).money) :=
  receive_payout_clamps_at_zero ⟨"P1", 3, 5, 0⟩ (-10) [(-10 : Int), 4, -7]

/-! ### Leg-winner bets (betting.py) -/

/-- `betting.LegWinnerBet`: owner, target camel, the ticket value fixed at
placement (5, 3 or 2), the resolution flag, and `leg_payout`, which in
Python is an attribute that only exists once assigned — modelled as an
`Option` that placement leaves at `none`. -/
structure LegBet where
  player_name : String
  target : String
  ticket_value : Int
  resolved : Bool
  leg_payout : Option Int
deriving DecidableEq, Repr, Inhabited

/-- `LegWinnerBet.calculate_leg_payout` (betting.py lines 54-61). -/
def LegBet.calculate_leg_payout (bet : LegBet) (camel_position : Nat) : Int :=
  if camel_position = 1 then bet.ticket_value
  else if camel_position = 2 then 1
  else -1

/-- One-based finishing position of `target` in the leg results
(`for i, camel in enumerate(leg_results): if camel.name == bet.target`),
`none` when the camel does not appear. -/
def leg_position (leg_results : List Camel) (target : String) : Option Nat :=
  (leg_results.findIdx? (fun c => c.name == target)).map (fun i => i + 1)

/-- `BettingManager.resolve_leg_bets` (betting.py lines 173-200) restricted
to its leg-winner bets (`bet.bet_type == 'leg_winner'`): every unresolved
bet is marked resolved; `leg_payout` is assigned only when the target camel
is found in the results (`if camel_position:`). -/
def resolve_leg_bets (leg_results : List Camel) (active : List LegBet) : List LegBet :=
  (active.filter (fun bt => !bt.resolved)).map (fun bt =>
    match leg_position leg_results bt.target with
    | some p => { bt with leg_payout := some (bt.calculate_leg_payout p), resolved := true }
    | none => { bt with resolved := true })

def blueLeader : Camel := { name := "Blue", position := 5, moves_backward := false }

def strayLegBet : LegBet :=
  { player_name := "P1", target := "Red", ticket_value := 5, resolved := false, leg_payout := none }

/-- C6 counterexample: resolving a leg bet whose target camel does not
appear in the finishing order leaves the bet without any payout
(`leg_payout` stays unset), not with the −1 the claim asserts. -/
theorem resolve_leg_bets_missing_target_no_payout :
    (resolve_leg_bets [blueLeader] [strayLegBet]).map (fun bt => bt.leg_payout) = [none] ∧
    (resolve_leg_bets [blueLeader] [strayLegBet]).map (fun bt => bt.leg_payout) ≠ [some (-1)] :=
  ⟨rfl, by decide⟩

/-- C6 (amended): a resolved leg bet is marked resolved; when its target
camel appears at position `p` the payout is the ticket value for `p = 1`,
1 for `p = 2` and −1 for any later position; when the target does not
appear in the finishing order no payout is assigned at all (`leg_payout`
remains unset rather than being set to −1). -/
theorem resolve_leg_bets_payout (leg_results : List Camel) (active : List LegBet)
    (hfresh : ∀ bt ∈ active, bt.leg_payout = none) :
    ∀ bt ∈ resolve_leg_bets leg_results active,
      bt.resolved = true ∧
      (∀ p, leg_position leg_results bt.target = some p →
        bt.leg_payout = some (if p = 1 then bt.ticket_value else if p = 2 then 1 else -1)) ∧
      (leg_position leg_results bt.target = none → bt.leg_payout = none) := by
  intro bt hbt
  unfold resolve_leg_bets at hbt
  obtain ⟨a, ha, heq⟩ := List.mem_map.mp hbt
  have ha' : a ∈ active := (List.mem_filter.mp ha).1
  have hfa := hfresh a ha'
  subst heq
  cases hpos : leg_position leg_results a.target with
  | none =>
    refine ⟨by simp [hpos], ?_, ?_⟩
    · intro p hp
      simp only [hpos] at hp
      simp at hp
    · intro _
      simp [hpos, hfa]
  | some q =>
    refine ⟨by simp [hpos], ?_, ?_⟩
    · intro p hp
      simp only [hpos] at hp
      have hqp : q = p := by simpa using hp
      subst hqp
      simp only [hpos]
      simp [LegBet.calculate_leg_payout]
    · intro hnone
      simp only [hpos] at hnone
      simp at hnone

def leaderLegBet : LegBet :=
  { player_name := "P2", target := "Blue", ticket_value := 5, resolved := false, leg_payout := none }

theorem resolve_leg_bets_payout_witness :
    ((resolve_leg_bets [blueLeader] [leaderLegBet]).getD 0 default).leg_payout = some 5 := by
  have h := resolve_leg_bets_payout [blueLeader] [leaderLegBet] (by decide)
    ((resolve_leg_bets [blueLeader] [leaderLegBet]).getD 0 default) (by decide)
  have h1 := h.2.1 1 (by decide)
  simpa using h1

/-! ### Race winner / loser bets (betting.py) -/

/-- A race winner or race loser bet token (`betting.RaceWinnerBet` /
`betting.RaceLoserBet`): placement appends it face down to the target
camel's deck; `deck_position` and `payout` are assigned at resolution. -/
structure RaceBet where
  player_name : String
  target : String
  won : Bool
  resolved : Bool
  deck_position : Option Nat
  payout : Option Int
deriving DecidableEq, Repr, Inhabited

/-- The reveal-position pay schedule `[8, 5, 3, 2, 1]` shared by
`RaceWinnerBet.calculate_race_payout` and
`RaceLoserBet.calculate_race_payout`. -/
def race_payouts : List Int := [8, 5, 3, 2, 1]

/-- `calculate_race_payout` (betting.py lines 35-44 and 71-80): a winning
deck token pays `payouts[deck_position - 1]` for positions 1..5 and −1
beyond; a token from any other deck pays −1.  Resolution only calls this
with `deck_position ≥ 1` in the winning branch, where the truncated `Nat`
index below agrees with Python. -/
def calculate_race_payout (won : Bool) (deck_position : Nat) : Int :=
  if won then
    if deck_position ≤ race_payouts.length then race_payouts.getD (deck_position - 1) 0
    else -1
  else -1

/-- The `for i, bet in enumerate(winner_deck)` resolution loop over the
already-shuffled deck, carried out from reveal index `i`: each token is
marked won and resolved, stamped with its 1-based reveal position, and paid
by position. -/
def resolve_won_deck (i : Nat) : List RaceBet → List RaceBet
  | [] => []
  | bet :: rest =>
    { bet with won := true, deck_position := some (i + 1),
               payout := some (calculate_race_payout true (i + 1)), resolved := true }
      :: resolve_won_deck (i + 1) rest

/-- The losing-deck loop: every token of a deck not belonging to the
winning (or losing, for loser bets) camel resolves as a flat −1. -/
def resolve_lost_deck (deck : List RaceBet) : List RaceBet :=
  deck.map (fun bet =>
    { bet with won := false, payout := some (calculate_race_payout false 0), resolved := true })

/-- Dictionary lookup `self.race_winner_decks[name]`, decks modelled as an
association list. -/
def deck_of (decks : List (String × List RaceBet)) (n : String) : List RaceBet :=
  ((decks.find? (fun p => p.1 == n)).map Prod.snd).getD []

/-- `BettingManager.resolve_race_bets` (betting.py lines 202-258).
`final_results` lists the camels in final order; the winner is its head and
the loser its last element.  `random.shuffle` is modelled by passing the
shuffled winner and loser decks (`shuffledW`, `shuffledL`) explicitly; the
theorem ties them to the stored decks with a permutation hypothesis.  The
output is the `resolved` list in the order Python builds it. -/
def resolve_race_bets (final_results : List Camel)
    (winner_decks loser_decks : List (String × List RaceBet))
    (shuffledW shuffledL : List RaceBet) : List RaceBet :=
  (match final_results.head? with
   | some _ => resolve_won_deck 0 shuffledW
   | none => []) ++
  (winner_decks.flatMap (fun p =>
    if (final_results.head?.map Camel.name) = some p.1 then [] else resolve_lost_deck p.2)) ++
  (match final_results.getLast? with
   | some _ => resolve_won_deck 0 shuffledL
   | none => []) ++
  (loser_decks.flatMap (fun p =>
    if (final_results.getLast?.map Camel.name) = some p.1 then [] else resolve_lost_deck p.2))

theorem resolve_won_deck_mem (m : Nat) (l : List RaceBet) (i : Nat) (h : i < l.length) :
    { l.getD i default with
        won := true,
        deck_position := some (m + i + 1),
        payout := some (calculate_race_payout true (m + i + 1)),
        resolved := true } ∈ resolve_won_deck m l := by
  induction l generalizing m i with
  | nil => simp at h
  | cons bet rest ih =>
    cases i with
    | zero => exact List.mem_cons_self _ _
    | succ i =>
      have := ih (m + 1) i (by simpa using h)
      refine List.mem_cons_of_mem _ ?_
      have harith : m + 1 + i + 1 = m + (i + 1) + 1 := by omega
      rw [harith] at this
      exact this

theorem resolve_won_deck_resolved (m : Nat) (l : List RaceBet) :
    ∀ bt ∈ resolve_won_deck m l, bt.resolved = true := by
  induction l generalizing m with
  | nil => intro bt h; simp [resolve_won_deck] at h
  | cons bet rest ih =>
    intro bt h
    simp only [resolve_won_deck, List.mem_cons] at h
    rcases h with rfl | h
    · rfl
    · exact ih (m + 1) bt h

theorem calculate_race_payout_won (i : Nat) :
    calculate_race_payout true (i + 1) = if i < 5 then race_payouts.getD i 0 else -1 := by
  show (if (true : Bool) = true then
      (if i + 1 ≤ race_payouts.length then race_payouts.getD (i + 1 - 1) 0 else -1)
    else -1) = _
  rw [if_pos rfl]
  have hlen : race_payouts.length = 5 := rfl
  rw [hlen]
  have hi : i + 1 - 1 = i := by omega
  rw [hi]
  by_cases h : i < 5
  · rw [if_pos (by omega), if_pos h]
  · rw [if_neg (by omega), if_neg h]

theorem resolve_lost_deck_resolved (deck : List RaceBet) :
    ∀ bt ∈ resolve_lost_deck deck, bt.resolved = true := by
  intro bt h
  obtain ⟨a, _, rfl⟩ := List.mem_map.mp h
  rfl

/-- C5: at race-bet resolution, in the deck of the camel that actually
finished first (winner bets) resp. last (loser bets), the token revealed at
position `i + 1` of the shuffled deck is resolved with payout
`[8,5,3,2,1][i]` for the first five reveals and −1 beyond; every token of
every other camel's deck of the same variant resolves with payout exactly
−1; and every resolved bet carries `resolved = true`. -/
theorem race_bet_deck_resolution (final_results : List Camel)
    (winner_decks loser_decks : List (String × List RaceBet))
    (shuffledW shuffledL : List RaceBet) (w lo : Camel)
    (hw : final_results.head? = some w)
    (hl : final_results.getLast? = some lo)
    (hshW : shuffledW.Perm (deck_of winner_decks w.name))
    (hshL : shuffledL.Perm (deck_of loser_decks lo.name)) :
    (∀ i, i < shuffledW.length →
      { shuffledW.getD i default with
          won := true,
          deck_position := some (i + 1),
          payout := some (if i < 5 then race_payouts.getD i 0 else -1),
          resolved := true } ∈
        resolve_race_bets final_results winner_decks loser_decks shuffledW shuffledL) ∧
    (∀ i, i < shuffledL.length →
      { shuffledL.getD i default with
          won := true,
          deck_position := some (i + 1),
          payout := some (if i < 5 then race_payouts.getD i 0 else -1),
          resolved := true } ∈
        resolve_race_bets final_results winner_decks loser_decks shuffledW shuffledL) ∧
    (∀ p ∈ winner_decks, p.1 ≠ w.name → ∀ bet ∈ p.2,
      { bet with won := false, payout := some (-1), resolved := true } ∈
        resolve_race_bets final_results winner_decks loser_decks shuffledW shuffledL) ∧
    (∀ p ∈ loser_decks, p.1 ≠ lo.name → ∀ bet ∈ p.2,
      { bet with won := false, payout := some (-1), resolved := true } ∈
        resolve_race_bets final_results winner_decks loser_decks shuffledW shuffledL) ∧
    (∀ bet ∈ resolve_race_bets final_results winner_decks loser_decks shuffledW shuffledL,
      bet.resolved = true) := by
  refine ⟨?_, ?_, ?_, ?_, ?_⟩
  · intro i hi
    have hm := resolve_won_deck_mem 0 shuffledW i hi
    simp only [Nat.zero_add] at hm
    rw [calculate_race_payout_won] at hm
    unfold resolve_race_bets
    rw [hw]
    exact List.mem_append_left _ (List.mem_append_left _ (List.mem_append_left _ hm))
  · intro i hi
    have hm := resolve_won_deck_mem 0 shuffledL i hi
    simp only [Nat.zero_add] at hm
    rw [calculate_race_payout_won] at hm
    unfold resolve_race_bets
    rw [hl]
    exact List.mem_append_left _ (List.mem_append_right _ hm)
  · intro p hp hp1 bet hbet
    have hne' : ¬ (final_results.head?.map Camel.name = some p.1) := by
      rw [hw]
      simp only [Option.map_some', Option.some.injEq]
      exact fun h => hp1 h.symm
    have helem : ({ bet with won := false, payout := some (-1), resolved := true } : RaceBet)
        ∈ (if final_results.head?.map Camel.name = some p.1 then [] else resolve_lost_deck p.2) := by
      rw [if_neg hne']
      exact List.mem_map_of_mem _ hbet
    have hB : ({ bet with won := false, payout := some (-1), resolved := true } : RaceBet)
        ∈ winner_decks.flatMap (fun p =>
            if final_results.head?.map Camel.name = some p.1 then [] else resolve_lost_deck p.2) :=
      List.mem_flatMap.mpr ⟨p, hp, helem⟩
    unfold resolve_race_bets
    exact List.mem_append_left _ (List.mem_append_left _ (List.mem_append_right _ hB))
  · intro p hp hp1 bet hbet
    have hne' : ¬ (final_results.getLast?.map Camel.name = some p.1) := by
      rw [hl]
      simp only [Option.map_some', Option.some.injEq]
      exact fun h => hp1 h.symm
    have helem : ({ bet with won := false, payout := some (-1), resolved := true } : RaceBet)
        ∈ (if final_results.getLast?.map Camel.name = some p.1 then [] else resolve_lost_deck p.2) := by
      rw [if_neg hne']
      exact List.mem_map_of_mem _ hbet
    have hD : ({ bet with won := false, payout := some (-1), resolved := true } : RaceBet)
        ∈ loser_decks.flatMap (fun p =>
            if final_results.getLast?.map Camel.name = some p.1 then [] else resolve_lost_deck p.2) :=
      List.mem_flatMap.mpr ⟨p, hp, helem⟩
    unfold resolve_race_bets
    exact List.mem_append_right _ hD
  · intro bet hbet
    unfold resolve_race_bets at hbet
    rw [hw, hl] at hbet
    rcases List.mem_append.mp hbet with h3 | hD
    rcases List.mem_append.mp h3 with h2 | hC
    rcases List.mem_append.mp h2 with hA | hB
    · exact resolve_won_deck_resolved 0 shuffledW bet hA
    · obtain ⟨p, _, h⟩ := List.mem_flatMap.mp hB
      split at h
      · simp at h
      · exact resolve_lost_deck_resolved p.2 bet h
    · exact resolve_won_deck_resolved 0 shuffledL bet hC
    · obtain ⟨p, _, h⟩ := List.mem_flatMap.mp hD
      split at h
      · simp at h
      · exact resolve_lost_deck_resolved p.2 bet h

def raceWinnerCamel : Camel := { name := "Red", position := 2, moves_backward := false }

def raceLoserCamel : Camel := { name := "Green", position := 0, moves_backward := false }

def rbet1 : RaceBet := { player_name := "P1", target := "Red", won := false, resolved := false, deck_position := none, payout := none }

def rbet2 : RaceBet := { player_name := "P2", target := "Red", won := false, resolved := false, deck_position := none, payout := none }

def rbet3 : RaceBet := { player_name := "P3", target := "Green", won := false, resolved := false, deck_position := none, payout := none }

def rbet4 : RaceBet := { player_name := "P1", target := "Green", won := false, resolved := false, deck_position := none, payout := none }

def witWinnerDecks : List (String × List RaceBet) := [("Red", [rbet1, rbet2]), ("Green", [rbet3])]

def witLoserDecks : List (String × List RaceBet) := [("Red", []), ("Green", [rbet4])]

theorem race_bet_deck_resolution_witness :
    { ([rbet2, rbet1].getD 0 default : RaceBet) with
        won := true,
        deck_position := some (0 + 1),
        payout := some (if 0 < 5 then race_payouts.getD 0 0 else -1),
        resolved := true } ∈
      resolve_race_bets [raceWinnerCamel, raceLoserCamel] witWinnerDecks witLoserDecks
        [rbet2, rbet1] [rbet4] :=
  (race_bet_deck_resolution [raceWinnerCamel, raceLoserCamel] witWinnerDecks witLoserDecks
    [rbet2, rbet1] [rbet4] raceWinnerCamel raceLoserCamel rfl rfl (by decide) (by decide)).1
    0 (by decide)

/-! ### Spectator tiles (spectator_tiles.py) -/

/-- `spectator_tiles.SpectatorTile`: owner, slot and side
(`'cheering'` = +1, `'booing'` = −1). -/
structure SpectatorTile where
  player_name : String
  position : Nat
  side : String
deriving DecidableEq, Repr

/-- `SpectatorTile.get_movement_modifier` (spectator_tiles.py lines 11-13). -/
def SpectatorTile.get_movement_modifier (t : SpectatorTile) : Int :=
  if t.side == "cheering" then 1 else -1

/-- `spectator_tiles.SpectatorTileManager`: the `position -> tile` map,
modelled as a list of tiles. -/
structure SpectatorTileManager where
  track_length : Nat
  tiles : List SpectatorTile
deriving DecidableEq, Repr

/-- `SpectatorTileManager.get_tile_at_position` (lines 54-56). -/
def SpectatorTileManager.get_tile_at_position (m : SpectatorTileManager) (pos : Nat) :
    Option SpectatorTile :=
  m.tiles.find? (fun t => t.position == pos)

/-- `SpectatorTileManager.get_movement_modifier` (lines 58-61). -/
def SpectatorTileManager.get_movement_modifier (m : SpectatorTileManager) (pos : Nat) : Int :=
  match m.get_tile_at_position pos with
  | some t => t.get_movement_modifier
  | none => 0

def tiledManager : SpectatorTileManager :=
  { track_length := 16, tiles := [{ player_name := "Alice", position := 3, side := "cheering" }] }

def red16 : Camel := { name := "Red", position := 0, moves_backward := false }

def board16 : Board := { track_length := 16, tiles := [[red16]] ++ List.replicate 16 [] }

/-- C9 exhibit: a stack move whose destination slot 3 carries a cheering
tile (modifier +1).  `move_camel_with_stack` neither applies the tile's
polarity nor returns a settlement: the stack is finalized on slot 3 itself
(slot 4 stays empty) and the caller receives `None`, so the
`spectator_payout` handling block in `TurnManager.execute_action_3` can
never run. -/
theorem move_ignores_spectator_tile :
    tiledManager.get_movement_modifier 3 = 1 ∧
    ∃ b', board16.move_camel_with_stack red16 3 = some (b', none) ∧
      b'.tileAt 3 = [{ red16 with position := 3 }] ∧
      b'.tileAt 4 = [] := by
  refine ⟨rfl, ⟨_, rfl, ?_, ?_⟩⟩ <;> rfl

/-! ### Turn-based leg state machine (turn_manager.py, dice.py) -/

/-- The six per-leg dice, in the order of `Dice.get_available_dice`. -/
def dice_colors : List String := ["Red", "Blue", "Green", "Yellow", "Purple", "BW"]

/-- `Dice.get_available_dice` (dice.py lines 44-50): the colors not yet in
`used_dice` this leg. -/
def get_available_dice (used : List String) : List String :=
  dice_colors.filter (fun c => !(used.contains c))

/-- `Dice.bw_faces` (dice.py lines 14-15): the six equally likely faces of
the combined black/white die. -/
def bw_faces : List (Nat × String) :=
  [(1, "White"), (2, "White"), (3, "White"), (1, "Black"), (2, "Black"), (3, "Black")]

/-- `next(c for c in camels if c.name == name)`, the camel lookup used all
over turn_manager.py, probability_calculator.py and ev_calculator.py;
`none` is Python's `StopIteration`. -/
def findCamel (camels : List Camel) (n : String) : Option Camel :=
  camels.find? (fun c => c.name == n)

/-- In Python the `Camel` objects inside `game.camels` are the same objects
stored in the board tiles, so `c.position = new_pos` inside the move also
updates the entries of `game.camels`.  This mirrors those shared-object
writes onto the separate `camels` list of the embedding. -/
def sync_positions (camels : List Camel) (b : Board) (camel : Camel) (np : Nat) :
    List Camel :=
  camels.map (fun c =>
    if (b.moving_group camel).any (fun m => m.name == c.name) then { c with position := np }
    else c)

/-- The slice of the `TurnManager`/`Dice`/`PyramidTicketManager` state that
the leg boundary depends on.  Player bookkeeping (money, tickets held) and
the betting state are omitted: no action writes from them into these
fields. -/
structure TMState where
  board : Board
  camels : List Camel
  used_dice : List String
  leg_ended : Bool
  pyramid_available : Nat
  last_pyramid_player : Option String

/-- `TurnManager.execute_action_3` (turn_manager.py lines 147-214), with
the die drawn by `Dice.roll_random_die` and its face passed in as the
random-choice oracle `(die, steps, bwTarget)`.  Control flow, in source
order: no pyramid ticket -> failure without state change; ticket taken
(pool decremented, caller recorded) but no dice left -> failure; die
appended to `used_dice`, then camel lookup — on `StopIteration`-free
lookup the camel moves (a raising move aborts the program: `none`), and
`leg_ended` is set exactly when `len(used_dice) == 6` after the draw.  The
camel-not-found branch returns failure *after* consuming the die and
without the leg check.  The dead `spectator_payout` block is omitted (the
move always returns `None`, see `move_ignores_spectator_tile`). -/
def execute_action_3 (s : TMState) (player : String) (die : String) (steps : Nat)
    (bwTarget : String) : Option (TMState × Bool) :=
  if s.pyramid_available = 0 then some (s, false)
  else if (get_available_dice s.used_dice).isEmpty then
    some ({ s with pyramid_available := s.pyramid_available - 1,
                   last_pyramid_player := some player }, false)
  else
    match findCamel s.camels (if die == "BW" then bwTarget else die) with
    | none =>
      some ({ s with pyramid_available := s.pyramid_available - 1,
                     last_pyramid_player := some player,
                     used_dice := s.used_dice ++ [die] }, false)
    | some camel =>
      match s.board.move_camel_with_stack camel steps with
      | none => none
      | some (b', _) =>
        if (s.used_dice ++ [die]).length = 6 then
          some ({ s with pyramid_available := s.pyramid_available - 1,
                         last_pyramid_player := some player,
                         used_dice := s.used_dice ++ [die],
                         board := b',
                         camels := sync_positions s.camels s.board camel
                           (s.board.dest_pos camel steps),
                         leg_ended := true }, true)
        else
          some ({ s with pyramid_available := s.pyramid_available - 1,
                         last_pyramid_player := some player,
                         used_dice := s.used_dice ++ [die],
                         board := b',
                         camels := sync_positions s.camels s.board camel
                           (s.board.dest_pos camel steps) }, true)

/-- One player turn of `GameManager._execute_turn_based_leg`.  Actions 1, 2
and 4 (tickets, tiles, race cards) and failed attempts leave every
`TMState` field unchanged; action 3 draws a uniformly random available die,
so the step relation ranges over every available `(die, face)` choice. -/
inductive TurnStep : TMState → TMState → Prop
  | bet_or_tile (s : TMState) : TurnStep s s
  | pyramid (s s' : TMState) (player die : String) (steps : Nat) (bwTarget : String) (ok : Bool)
      (hdie : die ∈ get_available_dice s.used_dice)
      (hface : if die = "BW" then (steps, bwTarget) ∈ bw_faces else steps ∈ [1, 2, 3])
      (hexec : execute_action_3 s player die steps bwTarget = some (s', ok)) :
      TurnStep s s'

/-- States reachable from a leg-start state by player turns. -/
def Reachable (init s : TMState) : Prop := Relation.ReflTransGen TurnStep init s

/-- The standard 7-camel setup provides a camel for every die outcome. -/
def covers_dice (camels : List Camel) : Prop :=
  (∀ d ∈ dice_colors, d ≠ "BW" → (findCamel camels d).isSome = true) ∧
  (findCamel camels "White").isSome = true ∧ (findCamel camels "Black").isSome = true

def LegInvariant (s : TMState) : Prop :=
  s.used_dice.Nodup ∧ (∀ d ∈ s.used_dice, d ∈ dice_colors) ∧
  (s.leg_ended = true ↔ s.used_dice.length = 6) ∧ covers_dice s.camels


theorem findCamel_sync_isSome (camels : List Camel) (b : Board) (camel : Camel)
    (np : Nat) (n : String) :
    (findCamel (sync_positions camels b camel np) n).isSome = (findCamel camels n).isSome := by
  induction camels with
  | nil => rfl
  | cons c t ih =>
    have hname : ((if (b.moving_group camel).any (fun m => m.name == c.name)
        then ({ c with position := np } : Camel) else c)).name = c.name := by
      split <;> rfl
    show ((((if (b.moving_group camel).any (fun m => m.name == c.name)
        then ({ c with position := np } : Camel) else c) :: sync_positions t b camel np).find?
          (fun x => x.name == n)).isSome)
        = (((c :: t).find? (fun x => x.name == n)).isSome)
    rw [List.find?_cons, List.find?_cons]
    have hpred : ((if (b.moving_group camel).any (fun m => m.name == c.name)
        then ({ c with position := np } : Camel) else c).name == n) = (c.name == n) := by
      rw [hname]
    rw [hpred]
    cases hb : (c.name == n) with
    | true => rfl
    | false => exact ih

theorem covers_dice_sync (camels : List Camel) (b : Board) (camel : Camel) (np : Nat)
    (h : covers_dice camels) : covers_dice (sync_positions camels b camel np) := by
  obtain ⟨h1, h2, h3⟩ := h
  refine ⟨fun d hd hne => ?_, ?_, ?_⟩
  · rw [findCamel_sync_isSome]
    exact h1 d hd hne
  · rw [findCamel_sync_isSome]
    exact h2
  · rw [findCamel_sync_isSome]
    exact h3

theorem mem_available_not_used (used : List String) (die : String)
    (h : die ∈ get_available_dice used) : die ∈ dice_colors ∧ die ∉ used := by
  unfold get_available_dice at h
  have h1 := List.mem_filter.mp h
  refine ⟨h1.1, fun hmem => ?_⟩
  have h2 := h1.2
  have hcon : used.contains die = true := List.elem_iff.mpr hmem
  rw [hcon] at h2
  simp at h2

theorem available_empty_of_full (used : List String) (hnodup : used.Nodup)
    (hsub : ∀ d ∈ used, d ∈ dice_colors) (hlen : used.length = 6) :
    get_available_dice used = [] := by
  have hsp : used.Subperm dice_colors := List.Nodup.subperm hnodup hsub
  have hperm : used.Perm dice_colors := by
    refine hsp.perm_of_length_le ?_
    have : dice_colors.length = 6 := rfl
    omega
  unfold get_available_dice
  rw [List.filter_eq_nil_iff]
  intro c hc
  have hcu : c ∈ used := hperm.mem_iff.mpr hc
  have hcon : used.contains c = true := List.elem_iff.mpr hcu
  simpa [hcon] using hcu

theorem exec3_preserves_invariant (s s' : TMState) (player die : String) (steps : Nat)
    (bwTarget : String) (ok : Bool)
    (hdie : die ∈ get_available_dice s.used_dice)
    (hface : if die = "BW" then (steps, bwTarget) ∈ bw_faces else steps ∈ [1, 2, 3])
    (hexec : execute_action_3 s player die steps bwTarget = some (s', ok))
    (hinv : LegInvariant s) : LegInvariant s' := by
  obtain ⟨hnodup, hsub, hflag, hcov⟩ := hinv
  obtain ⟨hdc, hdu⟩ := mem_available_not_used s.used_dice die hdie
  have hnodup' : (s.used_dice ++ [die]).Nodup := by
    simp [List.nodup_append, hnodup, hdu]
  have hsub' : ∀ d ∈ s.used_dice ++ [die], d ∈ dice_colors := by
    intro d hd
    rcases List.mem_append.mp hd with hd | hd
    · exact hsub d hd
    · rw [List.mem_singleton.mp hd]
      exact hdc
  have hnotfull : s.used_dice.length ≠ 6 := by
    intro hfull
    have hempty := available_empty_of_full s.used_dice hnodup hsub hfull
    rw [hempty] at hdie
    exact List.not_mem_nil die hdie
  have hfound : (findCamel s.camels (if die == "BW" then bwTarget else die)).isSome = true := by
    by_cases hbw : die = "BW"
    · rw [if_pos (by simp [hbw])]
      rw [if_pos hbw] at hface
      have hwb : bwTarget = "White" ∨ bwTarget = "Black" := by
        simp only [bw_faces, List.mem_cons, List.not_mem_nil, or_false] at hface
        rcases hface with h | h | h | h | h | h <;>
          simp only [Prod.mk.injEq] at h <;> tauto
      rcases hwb with h | h
      · rw [h]; exact hcov.2.1
      · rw [h]; exact hcov.2.2
    · rw [if_neg (by simp [hbw])]
      exact hcov.1 die hdc hbw
  unfold execute_action_3 at hexec
  by_cases h0 : s.pyramid_available = 0
  · rw [if_pos h0] at hexec
    simp only [Option.some.injEq, Prod.mk.injEq] at hexec
    obtain ⟨rfl, -⟩ := hexec
    exact ⟨hnodup, hsub, hflag, hcov⟩
  rw [if_neg h0] at hexec
  by_cases hav : (get_available_dice s.used_dice).isEmpty = true
  · rw [List.isEmpty_iff.mp hav] at hdie
    exact absurd hdie (List.not_mem_nil die)
  rw [if_neg hav] at hexec
  cases hfc : findCamel s.camels (if die == "BW" then bwTarget else die) with
  | none =>
    rw [hfc] at hfound
    simp at hfound
  | some camel =>
    simp only [hfc] at hexec
    cases hmv : s.board.move_camel_with_stack camel steps with
    | none =>
      simp only [hmv] at hexec
      exact Option.noConfusion hexec
    | some pr =>
      simp only [hmv] at hexec
      obtain ⟨b', ret⟩ := pr
      by_cases h6 : (s.used_dice ++ [die]).length = 6
      · rw [if_pos h6] at hexec
        simp only [Option.some.injEq, Prod.mk.injEq] at hexec
        obtain ⟨rfl, -⟩ := hexec
        exact ⟨hnodup', hsub', iff_of_true rfl h6, covers_dice_sync _ _ _ _ hcov⟩
      · rw [if_neg h6] at hexec
        simp only [Option.some.injEq, Prod.mk.injEq] at hexec
        obtain ⟨rfl, -⟩ := hexec
        refine ⟨hnodup', hsub', iff_of_false (fun hle => ?_) h6, covers_dice_sync _ _ _ _ hcov⟩
        exact hnotfull (hflag.mp hle)

theorem turnStep_preserves_invariant (s s' : TMState) (h : TurnStep s s')
    (hinv : LegInvariant s) : LegInvariant s' :=
  match h with
  | .bet_or_tile _ => hinv
  | .pyramid _ _ player die steps bwTarget ok hdie hface hexec =>
    exec3_preserves_invariant _ _ player die steps bwTarget ok hdie hface hexec hinv

/-- C7: in every turn sequence reachable from a leg-start state of the
standard setup (no dice drawn, flag down, a camel for every die outcome),
the leg-ended flag is set exactly when 6 dice have been drawn this leg:
never while fewer than 6 are drawn, and always once the 6th draw's move
completes — a race-ending move additionally interrupts the enclosing leg
loop, but the flag itself still tracks the 6-dice boundary. -/
theorem leg_ended_iff_six_dice (init s : TMState)
    (hused : init.used_dice = [])
    (hflag : init.leg_ended = false)
    (hcov : covers_dice init.camels)
    (hreach : Reachable init s) :
    s.leg_ended = true ↔ s.used_dice.length = 6 := by
  unfold Reachable at hreach
  have hinv : LegInvariant s := by
    induction hreach with
    | refl =>
      refine ⟨by simp [hused], by simp [hused], ?_, hcov⟩
      rw [hflag, hused]
      simp
    | tail h1 h2 ih => exact turnStep_preserves_invariant _ _ h2 ih
  exact hinv.2.2.1

def initTMCamels : List Camel :=
  [{ name := "Red", position := 0, moves_backward := false },
   { name := "Blue", position := 0, moves_backward := false },
   { name := "Green", position := 0, moves_backward := false },
   { name := "Yellow", position := 0, moves_backward := false },
   { name := "Purple", position := 0, moves_backward := false },
   { name := "White", position := 16, moves_backward := true },
   { name := "Black", position := 15, moves_backward := true }]

def initTM : TMState :=
  { board := { track_length := 16, tiles := List.replicate 17 [] },
    camels := initTMCamels,
    used_dice := [],
    leg_ended := false,
    pyramid_available := 5,
    last_pyramid_player := none }

theorem leg_ended_iff_six_dice_witness :
    initTM.leg_ended = true ↔ initTM.used_dice.length = 6 :=
  leg_ended_iff_six_dice initTM initTM rfl rfl
    (by refine ⟨?_, rfl, rfl⟩; decide) Relation.ReflTransGen.refl

/-! ### Exact probability enumeration (probability_calculator.py) -/

/-- The game state slice the calculators read: the board, the camel list
and the die colors already drawn this leg. -/
structure Game where
  board : Board
  camels : List Camel
  moved_this_leg : List String

/-- `ProbabilityCalculator._get_leading_normal_camel` (lines 68-74): scan
slots from `track_length` down to 0, each stack top-down, and return the
first forward-moving camel. -/
def get_leading_normal_camel (b : Board) : Option Camel :=
  ((List.range (b.track_length + 1)).reverse).findSome?
    (fun pos => ((b.tileAt pos).reverse).find? (fun c => !c.moves_backward))

/-- Names of the forward-moving camels of the game. -/
def forward_names (g : Game) : List String :=
  (g.camels.filter (fun c => !c.moves_backward)).map Camel.name

/-- `ProbabilityCalculator._simulate_move` (lines 56-66): look the moving
camel up (`next(...)`), move it on a disposable board copy, and read the
leading forward camel.  The outer `Option` marks runs on which the Python
raises (`StopIteration` or a failing move); the inner one is the returned
leader. -/
def scenario_leader (g : Game) (dice_color : String) (steps : Nat)
    (special_color : Option String) : Option (Option Camel) :=
  match (if dice_color == "BW" then special_color.bind (findCamel g.camels)
         else findCamel g.camels dice_color) with
  | none => none
  | some camel =>
    match g.board.move_camel_with_stack camel steps with
    | none => none
    | some (b', _) => some (get_leading_normal_camel b')

/-- The weighted leading count one die contributes to camel `n` in
`calculate_possible_outcomes` (lines 21-43): each of the six BW faces adds
1, each distinct colored value in `[1, 2, 3]` adds 2.  A scenario on which
the Python would raise contributes 0 here; the theorems' hypotheses rule
such scenarios out. -/
def die_leading_count (g : Game) (dice_color : String) (n : String) : Nat :=
  if dice_color == "BW" then
    (bw_faces.map (fun sf =>
      match scenario_leader g "BW" sf.1 (some sf.2) with
      | some (some lc) => if !lc.moves_backward && lc.name == n then 1 else 0
      | _ => 0)).sum
  else
    (([1, 2, 3] : List Nat).map (fun steps =>
      match scenario_leader g dice_color steps none with
      | some (some lc) => if !lc.moves_backward && lc.name == n then 2 else 0
      | _ => 0)).sum

/-- The final `leading_counts[n]` of `calculate_possible_outcomes`. -/
def leading_count (g : Game) (available_dice : List String) (n : String) : Nat :=
  (available_dice.map (fun d => die_leading_count g d n)).sum

/-- `total_scenarios = len(available_dice) * 6` (line 19). -/
def total_scenarios (available_dice : List String) : Nat :=
  available_dice.length * 6

/-- The camels a die can move: the BW die moves White or Black depending
on the face, a colored die moves its namesake camel. -/
def die_movers (d : String) : List String :=
  if d == "BW" then ["White", "Black"] else [d]

/-- A camel name is movable when its lookup succeeds and the camel is
resident in the stack at its recorded position. -/
def movable (g : Game) (m : String) : Bool :=
  match findCamel g.camels m with
  | none => false
  | some camel =>
    decide (camel.position < g.board.tiles.length) &&
      (g.board.tileAt camel.position).any (fun c => c.name == camel.name)

theorem movable_spec (g : Game) (m : String) (h : movable g m = true) :
    ∃ camel, findCamel g.camels m = some camel ∧
      camel.position < g.board.tiles.length ∧
      (g.board.tileAt camel.position).any (fun c => c.name == camel.name) = true := by
  unfold movable at h
  cases hfc : findCamel g.camels m with
  | none =>
    rw [hfc] at h
    exact absurd h (by simp)
  | some camel =>
    rw [hfc] at h
    simp only [Bool.and_eq_true, decide_eq_true_eq] at h
    exact ⟨camel, rfl, h.1, h.2⟩

theorem findSome?_isSome_of_exists (l : List Nat) (f : Nat → Option Camel)
    (h : ∃ a ∈ l, (f a).isSome = true) : (l.findSome? f).isSome = true := by
  induction l with
  | nil =>
    obtain ⟨a, ha, -⟩ := h
    exact absurd ha (List.not_mem_nil a)
  | cons x t ih =>
    rw [List.findSome?_cons]
    cases hx : f x with
    | some v => rfl
    | none =>
      obtain ⟨a, ha, hfa⟩ := h
      rcases List.mem_cons.mp ha with rfl | ha'
      · rw [hx] at hfa
        simp at hfa
      · exact ih ⟨a, ha', hfa⟩

theorem findSome?_eq_some_imp (l : List Nat) (f : Nat → Option Camel) (v : Camel)
    (h : l.findSome? f = some v) : ∃ a ∈ l, f a = some v := by
  induction l with
  | nil => simp at h
  | cons x t ih =>
    rw [List.findSome?_cons] at h
    cases hx : f x with
    | some w =>
      rw [hx] at h
      exact ⟨x, List.mem_cons_self x t, by rw [hx]; exact h⟩
    | none =>
      rw [hx] at h
      obtain ⟨a, ha, hfa⟩ := ih h
      exact ⟨a, List.mem_cons_of_mem _ ha, hfa⟩

theorem tileAt_eq_getElem (b : Board) (j : Nat) (hj : j < b.tiles.length) :
    b.tileAt j = b.tiles[j] := by
  unfold Board.tileAt
  rw [List.getD_eq_getElem?_getD, List.getElem?_eq_getElem hj]
  rfl

theorem get_leading_some (b : Board) (hlen : b.tiles.length = b.track_length + 1)
    (hfwd : 0 < b.allCamels.countP (fun c => !c.moves_backward)) :
    ∃ lc, get_leading_normal_camel b = some lc ∧ lc.moves_backward = false ∧
      lc ∈ b.allCamels := by
  obtain ⟨c, hc, hcp⟩ := List.countP_pos_iff.mp hfwd
  obtain ⟨s, hs, hcs⟩ := List.mem_flatten.mp hc
  obtain ⟨j, hj, hjs⟩ := List.mem_iff_getElem.mp hs
  have htile : b.tileAt j = s := by
    rw [tileAt_eq_getElem b j hj]
    exact hjs
  have hjmem : j ∈ (List.range (b.track_length + 1)).reverse :=
    List.mem_reverse.mpr (List.mem_range.mpr (by omega))
  have hinner : ((b.tileAt j).reverse.find? (fun c => !c.moves_backward)).isSome = true := by
    rw [htile]
    exact List.find?_isSome.mpr ⟨c, List.mem_reverse.mpr hcs, hcp⟩
  have hsome : (((List.range (b.track_length + 1)).reverse).findSome?
      (fun pos => ((b.tileAt pos).reverse).find? (fun c => !c.moves_backward))).isSome = true :=
    findSome?_isSome_of_exists _ _ ⟨j, hjmem, hinner⟩
  obtain ⟨lc, hlc⟩ := Option.isSome_iff_exists.mp hsome
  obtain ⟨pos, hposmem, hfind⟩ := findSome?_eq_some_imp _ _ _ hlc
  refine ⟨lc, hlc, ?_, ?_⟩
  · have hp := List.find?_some hfind
    simpa using hp
  · have hmemrev := List.mem_of_find?_eq_some hfind
    have hmem2 : lc ∈ b.tileAt pos := List.mem_reverse.mp hmemrev
    have hposlt : pos < b.tiles.length := by
      have := List.mem_range.mp (List.mem_reverse.mp hposmem)
      omega
    have htile2 : b.tileAt pos ∈ b.tiles := by
      rw [tileAt_eq_getElem b pos hposlt]
      exact List.getElem_mem hposlt
    exact List.mem_flatten.mpr ⟨_, htile2, hmem2⟩


/-- The board produced by a successful `move_camel_with_stack`. -/
def movedBoard (b : Board) (camel : Camel) (i steps : Nat) : Board :=
  { b with
      tiles := movedTiles b.tiles camel.position i (b.dest_pos camel steps) (b.tileAt camel.position) }

theorem scenario_leader_spec (g : Game) (dice_color : String) (steps : Nat)
    (special : Option String) (camel : Camel)
    (hlen : g.board.tiles.length = g.board.track_length + 1)
    (hfind : (if dice_color == "BW" then special.bind (findCamel g.camels)
        else findCamel g.camels dice_color) = some camel)
    (hpos : camel.position < g.board.tiles.length)
    (hmem : (g.board.tileAt camel.position).any (fun c => c.name == camel.name) = true)
    (hfwd : 0 < g.board.allCamels.countP (fun c => !c.moves_backward))
    (hcover : ∀ c ∈ g.board.allCamels, c.moves_backward = false → c.name ∈ forward_names g) :
    ∃ lc, scenario_leader g dice_color steps special = some (some lc) ∧
      lc.moves_backward = false ∧ lc.name ∈ forward_names g := by
  have hstack := tiles_getElem?_tileAt g.board camel.position hpos
  obtain ⟨i, hidx⟩ := findIdx?_isSome_of_any _ _ hmem
  have hnp := dest_pos_lt g.board camel steps hlen hpos
  have hmv : g.board.move_camel_with_stack camel steps =
      some (movedBoard g.board camel i steps, none) :=
    move_camel_with_stack_eq g.board camel steps _ i hstack hidx hnp
  have hlen' : (movedBoard g.board camel i steps).tiles.length
      = (movedBoard g.board camel i steps).track_length + 1 := by
    show (movedTiles _ _ _ _ _).length = g.board.track_length + 1
    rw [length_movedTiles_tiles]
    exact hlen
  have hfwd' : 0 < (movedBoard g.board camel i steps).allCamels.countP
      (fun c => !c.moves_backward) := by
    show 0 < ((movedTiles _ _ _ _ _).flatten.countP _)
    rw [countP_movedTiles (fun c => !c.moves_backward) (fun _ _ => rfl) _ _ _ _ _ hstack hnp]
    exact hfwd
  obtain ⟨lc, hlead, hlcb, hlcmem⟩ := get_leading_some _ hlen' hfwd'
  refine ⟨lc, ?_, hlcb, ?_⟩
  · unfold scenario_leader
    simp only [hfind]
    simp only [hmv]
    rw [hlead]
  · have hcount : 0 < (movedBoard g.board camel i steps).allCamels.countP
        (fun c => c.name == lc.name && !c.moves_backward) := by
      refine List.countP_pos_iff.mpr ⟨lc, hlcmem, ?_⟩
      simp [hlcb]
    have heq : (movedBoard g.board camel i steps).allCamels.countP
          (fun c => c.name == lc.name && !c.moves_backward)
        = g.board.allCamels.countP (fun c => c.name == lc.name && !c.moves_backward) := by
      show ((movedTiles _ _ _ _ _).flatten.countP _) = _
      exact countP_movedTiles (fun c => c.name == lc.name && !c.moves_backward)
        (fun _ _ => rfl) _ _ _ _ _ hstack hnp
    have hcount0 : 0 < g.board.allCamels.countP
        (fun c => c.name == lc.name && !c.moves_backward) := by
      omega
    obtain ⟨c, hcmem, hcp⟩ := List.countP_pos_iff.mp hcount0
    simp only [Bool.and_eq_true, beq_iff_eq, Bool.not_eq_true'] at hcp
    have hres := hcover c hcmem hcp.2
    rw [hcp.1] at hres
    exact hres

theorem sum_map_add_nat (A : List String) (f g : String → Nat) :
    (A.map (fun x => f x + g x)).sum = (A.map f).sum + (A.map g).sum := by
  induction A with
  | nil => rfl
  | cons x t ih =>
    simp only [List.map_cons, List.sum_cons, ih]
    omega

theorem sum_map_swap {β : Type} (A : List String) (B : List β) (f : β → String → Nat) :
    (A.map (fun n => (B.map (fun b => f b n)).sum)).sum
      = (B.map (fun b => (A.map (fun n => f b n)).sum)).sum := by
  induction B with
  | nil => simp
  | cons b t ih =>
    simp only [List.map_cons, List.sum_cons]
    rw [sum_map_add_nat, ih]

theorem sum_map_const_nat (l : List String) (c : Nat) :
    (l.map (fun _ => c)).sum = l.length * c := by
  induction l with
  | nil => simp
  | cons x t ih =>
    simp only [List.map_cons, List.sum_cons, List.length_cons, ih]
    ring

theorem sum_indicator (names : List String) (hn : names.Nodup) (x : String)
    (hx : x ∈ names) (w : Nat) :
    (names.map (fun m => if x == m then w else 0)).sum = w := by
  induction names with
  | nil => exact absurd hx (List.not_mem_nil x)
  | cons a t ih =>
    obtain ⟨hna, hnt⟩ := List.nodup_cons.mp hn
    simp only [List.map_cons, List.sum_cons]
    rcases List.mem_cons.mp hx with rfl | hx'
    · rw [if_pos (by simp)]
      have hzero : (t.map (fun m => if x == m then w else 0)).sum = 0 := by
        apply List.sum_eq_zero
        intro y hy
        obtain ⟨m, hm, rfl⟩ := List.mem_map.mp hy
        rw [if_neg]
        intro hcontra
        have hxm : x = m := by simpa using hcontra
        exact hna (hxm ▸ hm)
      rw [hzero]
      omega
    · have hneq : ¬(x == a) = true := by
        simp only [beq_iff_eq]
        intro h
        rw [h] at hx'
        exact hna hx'
      rw [if_neg hneq, ih hnt hx', Nat.zero_add]

theorem face_count_sum (names : List String) (hn : names.Nodup) (w : Nat) (lc : Camel)
    (hbw : lc.moves_backward = false) (hmem : lc.name ∈ names) :
    (names.map (fun n => if !lc.moves_backward && lc.name == n then w else 0)).sum = w := by
  have hcongr : (names.map (fun n => if !lc.moves_backward && lc.name == n then w else 0))
      = names.map (fun n => if lc.name == n then w else 0) := by
    apply List.map_congr_left
    intro m hm
    rw [hbw]
    simp
  rw [hcongr]
  exact sum_indicator names hn lc.name hmem w

theorem die_leading_count_sum (g : Game) (d : String)
    (hlen : g.board.tiles.length = g.board.track_length + 1)
    (hfwd : 0 < g.board.allCamels.countP (fun c => !c.moves_backward))
    (hcover : ∀ c ∈ g.board.allCamels, c.moves_backward = false → c.name ∈ forward_names g)
    (hnodup : (forward_names g).Nodup)
    (hmv : ∀ m ∈ die_movers d, movable g m = true) :
    ((forward_names g).map (fun n => die_leading_count g d n)).sum = 6 := by
  by_cases hbw : (d == "BW") = true
  · have hform : (forward_names g).map (fun n => die_leading_count g d n)
        = (forward_names g).map (fun n => (bw_faces.map (fun sf =>
            match scenario_leader g "BW" sf.1 (some sf.2) with
            | some (some lc) => if !lc.moves_backward && lc.name == n then 1 else 0
            | _ => 0)).sum) := by
      apply List.map_congr_left
      intro n hn
      unfold die_leading_count
      rw [if_pos hbw]
    have hface : ∀ sf ∈ bw_faces, ((forward_names g).map (fun n =>
        match scenario_leader g "BW" sf.1 (some sf.2) with
        | some (some lc) => if !lc.moves_backward && lc.name == n then 1 else 0
        | _ => 0)).sum = 1 := by
      intro sf hsf
      have hsc : sf.2 ∈ die_movers d := by
        unfold die_movers
        rw [if_pos hbw]
        simp only [bw_faces, List.mem_cons, List.not_mem_nil, or_false] at hsf
        rcases hsf with h | h | h | h | h | h <;> rw [h] <;> simp
      obtain ⟨camel, hfc, hcpos, hcany⟩ := movable_spec g sf.2 (hmv sf.2 hsc)
      have hfind : (if ("BW" : String) == "BW" then (some sf.2).bind (findCamel g.camels)
          else findCamel g.camels "BW") = some camel := by
        rw [if_pos (by simp)]
        simpa using hfc
      obtain ⟨lc, hlead, hlcb, hlcm⟩ := scenario_leader_spec g "BW" sf.1 (some sf.2) camel
        hlen hfind hcpos hcany hfwd hcover
      have hmapeq : (forward_names g).map (fun n =>
          match scenario_leader g "BW" sf.1 (some sf.2) with
          | some (some lc0) => if !lc0.moves_backward && lc0.name == n then 1 else 0
          | _ => 0) = (forward_names g).map
            (fun n => if !lc.moves_backward && lc.name == n then 1 else 0) := by
        apply List.map_congr_left
        intro n hn
        rw [hlead]
      rw [hmapeq]
      exact face_count_sum _ hnodup 1 lc hlcb hlcm
    rw [hform, sum_map_swap]
    rw [List.map_congr_left hface]
    rfl
  · have hform : (forward_names g).map (fun n => die_leading_count g d n)
        = (forward_names g).map (fun n => (([1, 2, 3] : List Nat).map (fun steps =>
            match scenario_leader g d steps none with
            | some (some lc) => if !lc.moves_backward && lc.name == n then 2 else 0
            | _ => 0)).sum) := by
      apply List.map_congr_left
      intro n hn
      unfold die_leading_count
      rw [if_neg hbw]
    have hface : ∀ steps ∈ ([1, 2, 3] : List Nat), ((forward_names g).map (fun n =>
        match scenario_leader g d steps none with
        | some (some lc) => if !lc.moves_backward && lc.name == n then 2 else 0
        | _ => 0)).sum = 2 := by
      intro steps hsteps
      have hsc : d ∈ die_movers d := by
        unfold die_movers
        rw [if_neg hbw]
        simp
      obtain ⟨camel, hfc, hcpos, hcany⟩ := movable_spec g d (hmv d hsc)
      have hfind : (if d == "BW" then (none : Option String).bind (findCamel g.camels)
          else findCamel g.camels d) = some camel := by
        rw [if_neg hbw]
        exact hfc
      obtain ⟨lc, hlead, hlcb, hlcm⟩ := scenario_leader_spec g d steps none camel
        hlen hfind hcpos hcany hfwd hcover
      have hmapeq : (forward_names g).map (fun n =>
          match scenario_leader g d steps none with
          | some (some lc0) => if !lc0.moves_backward && lc0.name == n then 2 else 0
          | _ => 0) = (forward_names g).map
            (fun n => if !lc.moves_backward && lc.name == n then 2 else 0) := by
        apply List.map_congr_left
        intro n hn
        rw [hlead]
      rw [hmapeq]
      exact face_count_sum _ hnodup 2 lc hlcb hlcm
    rw [hform, sum_map_swap]
    rw [List.map_congr_left hface]
    rfl

theorem countP_add_countP_not (l : List String) (p : String → Bool) :
    l.countP p + l.countP (fun x => !(p x)) = l.length := by
  induction l with
  | nil => rfl
  | cons x t ih =>
    by_cases h : p x = true
    · simp [List.countP_cons, h]
      omega
    · simp [List.countP_cons, h]
      omega

theorem sum_map_div_rat (l : List String) (f : String → ℚ) (q : ℚ) :
    ((l.map f).sum) / q = (l.map (fun x => f x / q)).sum := by
  induction l with
  | nil => simp
  | cons x t ih =>
    simp only [List.map_cons, List.sum_cons, ← ih]
    rw [add_div]

theorem cast_sum_map (names : List String) (cnt : String → Nat) :
    (((names.map cnt).sum : Nat) : ℚ) = (names.map (fun n => ((cnt n : Nat) : ℚ))).sum := by
  rw [Nat.cast_list_sum, List.map_map]
  rfl

/-- C4: for a non-empty set of undrawn dice (with the combined BW die
listed at most once, as `Dice.get_available_dice` guarantees) on a
well-formed board with at least one forward camel, the exact enumeration's
total scenario weight `len(available_dice) * 6` equals (undrawn colored
dice × 6) + (6 if the BW die is undrawn); the per-camel weighted leading
counts (colored faces weighing 2, BW faces weighing 1) sum to that total;
and the derived probabilities sum to 1. -/
theorem probability_enumeration_totals (g : Game) (available_dice : List String)
    (hne : available_dice ≠ [])
    (hbwc : available_dice.count "BW" ≤ 1)
    (hlen : g.board.tiles.length = g.board.track_length + 1)
    (hnodup : (forward_names g).Nodup)
    (hfwd : 0 < g.board.allCamels.countP (fun c => !c.moves_backward))
    (hcover : ∀ c ∈ g.board.allCamels, c.moves_backward = false → c.name ∈ forward_names g)
    (hmv : ∀ d ∈ available_dice, ∀ m ∈ die_movers d, movable g m = true) :
    total_scenarios available_dice
        = 6 * (available_dice.filter (fun d => !(d == "BW"))).length
          + (if "BW" ∈ available_dice then 6 else 0) ∧
    ((forward_names g).map (leading_count g available_dice)).sum
        = total_scenarios available_dice ∧
    ((forward_names g).map (fun n =>
        (leading_count g available_dice n : ℚ) / (total_scenarios available_dice : ℚ))).sum
      = 1 := by
  have hcnt : available_dice.count "BW" = (if "BW" ∈ available_dice then 1 else 0) := by
    by_cases hin : "BW" ∈ available_dice
    · rw [if_pos hin]
      exact le_antisymm hbwc (List.count_pos_iff.mpr hin)
    · rw [if_neg hin]
      exact List.count_eq_zero.mpr hin
  have hcount_split := countP_add_countP_not available_dice (fun d => d == "BW")
  have hfilter : (available_dice.filter (fun d => !(d == "BW"))).length
      = available_dice.countP (fun d => !(d == "BW")) :=
    (List.countP_eq_length_filter _ _).symm
  have hcountP_bw : available_dice.countP (fun d => d == "BW") = available_dice.count "BW" := rfl
  have part1 : total_scenarios available_dice
      = 6 * (available_dice.filter (fun d => !(d == "BW"))).length
        + (if "BW" ∈ available_dice then 6 else 0) := by
    unfold total_scenarios
    rw [hfilter]
    by_cases hin : "BW" ∈ available_dice
    · rw [if_pos hin]
      rw [if_pos hin] at hcnt
      rw [hcountP_bw, hcnt] at hcount_split
      omega
    · rw [if_neg hin]
      rw [if_neg hin] at hcnt
      rw [hcountP_bw, hcnt] at hcount_split
      omega
  have part2 : ((forward_names g).map (leading_count g available_dice)).sum
      = total_scenarios available_dice := by
    show ((forward_names g).map (fun n =>
      (available_dice.map (fun d => die_leading_count g d n)).sum)).sum = _
    rw [sum_map_swap]
    have hone : ∀ d ∈ available_dice, ((forward_names g).map
        (fun n => die_leading_count g d n)).sum = 6 := fun d hd =>
      die_leading_count_sum g d hlen hfwd hcover hnodup (hmv d hd)
    rw [List.map_congr_left hone, sum_map_const_nat]
    rfl
  refine ⟨part1, part2, ?_⟩
  have hT : (total_scenarios available_dice : ℚ) ≠ 0 := by
    unfold total_scenarios
    have : available_dice.length ≠ 0 := fun h => hne (List.length_eq_zero.mp h)
    exact_mod_cast Nat.mul_ne_zero this (by omega)
  rw [← sum_map_div_rat, ← cast_sum_map, part2]
  exact div_self hT

def witGame : Game :=
  { board := { track_length := 3,
               tiles := [[{ name := "Red", position := 0, moves_backward := false }],
                         [{ name := "White", position := 1, moves_backward := true },
                          { name := "Blue", position := 1, moves_backward := false }],
                         [{ name := "Black", position := 2, moves_backward := true }],
                         []] },
    camels := [{ name := "Red", position := 0, moves_backward := false },
               { name := "Blue", position := 1, moves_backward := false },
               { name := "White", position := 1, moves_backward := true },
               { name := "Black", position := 2, moves_backward := true }],
    moved_this_leg := [] }

theorem probability_enumeration_totals_witness :
    total_scenarios ["Red", "BW"]
        = 6 * ((["Red", "BW"] : List String).filter (fun d => !(d == "BW"))).length
          + (if "BW" ∈ (["Red", "BW"] : List String) then 6 else 0) ∧
    ((forward_names witGame).map (leading_count witGame ["Red", "BW"])).sum
        = total_scenarios ["Red", "BW"] ∧
    ((forward_names witGame).map (fun n =>
        (leading_count witGame ["Red", "BW"] n : ℚ) / (total_scenarios ["Red", "BW"] : ℚ))).sum
      = 1 :=
  probability_enumeration_totals witGame ["Red", "BW"] (by decide) (by decide) rfl
    (by decide) (by decide) (by decide) (by decide)

/-! ### Monte-Carlo leg-bet estimator (ev_calculator.py) -/

/-- Per-iteration randomness of one simulation trial: the index drawn by
`random.choice(available_dice)`, the rolled step count, and the camel color
of the BW face. -/
abbrev TrialOracle := List (Nat × Nat × String)

/-- The trial loop of `calculate_leg_bet_evs` (ev_calculator.py lines
124-142): `while dice_rolled < len(available_dice)`, pick a random
available die, remove it, roll it and move the camel.  An exhausted oracle
under a still-true loop condition, a failed lookup (`StopIteration`) or a
raising move is `none`.  The shared camel objects' position writes are
mirrored with `sync_positions`. -/
def simLoop : Board → List Camel → List String → Nat → TrialOracle → Option Board
  | b, _, available, rolled, [] => if rolled < available.length then none else some b
  | b, camels, available, rolled, entry :: rest =>
    if rolled < available.length then
      if available.isEmpty then some b
      else
        match findCamel camels
            (if (available.getD (entry.1 % available.length) "") == "BW" then entry.2.2
             else available.getD (entry.1 % available.length) "") with
        | none => none
        | some camel =>
          match b.move_camel_with_stack camel entry.2.1 with
          | none => none
          | some (b', _) =>
            simLoop b' (sync_positions camels b camel (b.dest_pos camel entry.2.1))
              (available.erase (available.getD (entry.1 % available.length) ""))
              (rolled + 1) rest
    else some b

/-- The post-trial ranking (lines 144-149): slots scanned from
`track_length` down to 0, stacks top-down, forward camels only. -/
def leg_ranking (b : Board) : List Camel :=
  ((List.range (b.track_length + 1)).reverse).flatMap
    (fun pos => ((b.tileAt pos).reverse).filter (fun c => !c.moves_backward))

/-- One trial (lines 115-149): compute the still-available dice from
`moved_this_leg`, run the roll loop on a disposable copy, read the
ranking. -/
def run_trial (g : Game) (o : TrialOracle) : Option (List Camel) :=
  (simLoop g.board g.camels
    (dice_colors.filter (fun d => !(g.moved_this_leg.contains d))) 0 o).map leg_ranking

/-- The ticket-position pay table `position_payouts` (lines 101-106),
`none` beyond the 4th position (`if next_position in position_payouts`). -/
def position_payouts (p : Nat) : Option Int :=
  if p = 1 then some 5 else if p = 2 then some 3 else if p = 3 then some 2
  else if p = 4 then some 1 else none

/-- `ExpectedValueCalculator.calculate_leg_bet_evs` (lines 85-160) read at
camel name `n`: each trial adds `payout / num_simulations` to the camel
leading its final ranking, where the payout is taken from the next
available ticket position for that camel.  A trial on which the Python
raises contributes 0; the claims' scenarios never raise. -/
def calculate_leg_bet_evs (g : Game) (ticket_positions : String → Nat)
    (oracles : List TrialOracle) (n : String) : ℚ :=
  (oracles.map (fun o =>
    match run_trial g o with
    | some ranking =>
      match ranking.head? with
      | some w =>
        if w.name == n then
          match position_payouts (ticket_positions w.name + 1) with
          | some p => (p : ℚ) / (oracles.length : ℚ)
          | none => 0
        else 0
      | none => 0
    | none => 0)).sum

/-- A game state with every die already drawn this leg and the Red camel
leading from slot 1. -/
def g8 : Game :=
  { board := { track_length := 2,
               tiles := [[], [{ name := "Red", position := 1, moves_backward := false }], []] },
    camels := [{ name := "Red", position := 1, moves_backward := false }],
    moved_this_leg := dice_colors }

/-- C8 counterexample: with zero undrawn dice the estimator does NOT
return 0 for every camel — a single trial on `g8` credits the current
leader Red with its full next-ticket payout of 5. -/
theorem leg_bet_evs_no_undrawn_counterexample :
    calculate_leg_bet_evs g8 (fun _ => 0) [[]] "Red" = 5 ∧ (5 : ℚ) ≠ 0 := by
  constructor
  · unfold calculate_leg_bet_evs
    simp only [List.map_cons, List.map_nil, List.sum_cons, List.sum_nil]
    have h1 : run_trial g8 [] = some (leg_ranking g8.board) := rfl
    simp only [h1]
    have h2 : (leg_ranking g8.board).head? =
        some { name := "Red", position := 1, moves_backward := false } := rfl
    simp only [h2]
    norm_num [position_payouts]
  · norm_num

theorem sum_map_const_rat (l : List TrialOracle) (c : ℚ) :
    (l.map (fun _ => c)).sum = (l.length : ℚ) * c := by
  induction l with
  | nil => simp
  | cons x t ih =>
    simp only [List.map_cons, List.sum_cons, List.length_cons, ih]
    push_cast
    ring

/-- C8 (amended): when no dice remain undrawn, the simulation loop never
runs, so every trial reproduces the current board; with at least one trial
the estimator returns, for the camel currently leading the leg, the payout
of its next ticket position (and 0 once the table is exhausted), and 0 for
every other camel; only with zero trials — or no leading forward camel —
does it return 0 for every camel. -/
theorem leg_bet_evs_no_undrawn (g : Game) (tp : String → Nat) (oracles : List TrialOracle)
    (n : String)
    (hnodice : dice_colors.filter (fun d => !(g.moved_this_leg.contains d)) = []) :
    calculate_leg_bet_evs g tp oracles n =
      if oracles.length = 0 then 0
      else match (leg_ranking g.board).head? with
        | some w => if w.name == n then ((position_payouts (tp w.name + 1)).getD 0 : ℚ) else 0
        | none => 0 := by
  have htrial : ∀ o : TrialOracle, run_trial g o = some (leg_ranking g.board) := by
    intro o
    unfold run_trial
    rw [hnodice]
    cases o with
    | nil => rfl
    | cons e rest => rfl
  unfold calculate_leg_bet_evs
  have hconst : (oracles.map (fun o =>
      match run_trial g o with
      | some ranking =>
        match ranking.head? with
        | some w =>
          if w.name == n then
            match position_payouts (tp w.name + 1) with
            | some p => (p : ℚ) / (oracles.length : ℚ)
            | none => 0
          else 0
        | none => 0
      | none => 0)) = oracles.map (fun _ =>
        match (leg_ranking g.board).head? with
        | some w =>
          if w.name == n then
            match position_payouts (tp w.name + 1) with
            | some p => (p : ℚ) / (oracles.length : ℚ)
            | none => 0
          else 0
        | none => 0) := by
    apply List.map_congr_left
    intro o ho
    rw [htrial o]
  rw [hconst, sum_map_const_rat]
  by_cases h0 : oracles.length = 0
  · rw [if_pos h0, h0]
    simp
  · rw [if_neg h0]
    have hlen : (oracles.length : ℚ) ≠ 0 := by
      exact_mod_cast h0
    cases hh : (leg_ranking g.board).head? with
    | none => simp [hh]
    | some w =>
      simp only [hh]
      by_cases hw : (w.name == n) = true
      · rw [if_pos hw, if_pos hw]
        cases hpp : position_payouts (tp w.name + 1) with
        | none => simp [hpp]
        | some p =>
          simp only [hpp, Option.getD_some]
          rw [mul_comm, div_mul_cancel₀ _ hlen]
      · rw [if_neg hw, if_neg hw]
        simp

theorem leg_bet_evs_no_undrawn_witness :
    calculate_leg_bet_evs g8 (fun _ => 0) [[], []] "Blue" =
      (if ([[], []] : List TrialOracle).length = 0 then 0
       else match (leg_ranking g8.board).head? with
         | some w => if w.name == "Blue" then
             ((position_payouts ((fun _ : String => 0) w.name + 1)).getD 0 : ℚ)
           else 0
         | none => 0) :=
  leg_bet_evs_no_undrawn g8 (fun _ => 0) [[], []] "Blue" rfl
